import Mathlib

/-!
# Verification of the APK editor core: process-bridge framing and smali text editing

Shallow embedding of the two specified components of the repository:

* `fast_dex.py` — the `FastDexEditor` process bridge: brace-counting frame
  reader (`_send_command`'s read loop) and the spawn/respawn logic
  (`_ensure_process`).
* `smali_utils.py` — the line-oriented smali text editor:
  `parse_smali_class`, `get_method_from_smali`, `replace_method_in_smali`,
  `insert_smali_code`.

Python strings are modelled as `List Char`; a multi-line document is a
`List Char` that is split on the newline character exactly as Python's
`str.split("\n")` does.  Machine-level concerns (UTF-8 byte layout, OS
pipes) are abstracted: the reader consumes the list of lines that
`readline` would have produced, and process spawning is modelled by an
explicit environment record.
-/

namespace ApkEditor

/-! ## Characters and whitespace (Python `str.strip`, `\s`) -/

/-- ASCII whitespace stripped by Python's `str.strip()` and matched by `\s`:
space, tab, newline, carriage return, vertical tab, form feed. -/
def isSpaceChar (c : Char) : Bool :=
  c == ' ' || c == '\t' || c == '\n' || c == '\r' || c == '\x0b' || c == '\x0c'

/-- Python `line.strip()`: drop leading and trailing whitespace. -/
def strip (l : List Char) : List Char :=
  ((l.dropWhile isSpaceChar).reverse.dropWhile isSpaceChar).reverse

/-- Python substring test `pat in s`: `pat` occurs contiguously in `s`. -/
def containsSub (pat : List Char) : List Char → Bool
  | [] => pat.isPrefixOf []
  | l@(_ :: rest) => pat.isPrefixOf l || containsSub pat rest

/-! ## Splitting and joining lines (Python `content.split("\n")`, `"\n".join`) -/

/-- Python `s.split("\n")`: always returns at least one (possibly empty) piece. -/
def splitLines : List Char → List (List Char)
  | [] => [[]]
  | c :: rest =>
    if c = '\n' then [] :: splitLines rest
    else
      match splitLines rest with
      | [] => [[c]]
      | l :: ls => (c :: l) :: ls

/-- Python `"\n".join(lines)`. -/
def joinLines : List (List Char) → List Char
  | [] => []
  | l :: ls =>
    match ls with
    | [] => l
    | _ :: _ => l ++ '\n' :: joinLines ls

/-! ## The brace-counting frame reader (`FastDexEditor._send_command`, read loop)

The Python loop reads one line at a time; per character it increments a
brace counter on a left brace and decrements it on a right brace, and sets
`started` when a left brace is seen.  After each whole line it appends the
line to the accumulator when `started` holds, and stops when `started`
holds and the counter is zero.  Appending and stopping are decided only at
line boundaries, so the per-character state can be folded per line. -/

/-- Contribution of one character to the brace counter: the left-brace
character counts `+1`, the right-brace character `-1`. -/
def charDelta (c : Char) : Int :=
  if c = '\x7b' then 1 else if c = '\x7d' then -1 else 0

/-- Net brace count of a whole line. -/
def lineDelta (l : List Char) : Int :=
  l.foldl (fun a c => a + charDelta c) 0

/-- Does the line contain a left-brace character? (This is what flips the
Python `started` flag.) -/
def hasOpen (l : List Char) : Bool :=
  l.any (fun c => c == '\x7b')

/-- The read loop of `_send_command`: state `brace` (running counter),
`started` (a left brace has been seen), `acc` (lines kept so far).
Returns the accumulated lines and whether the loop stopped because the
frame completed (`True`) or because the stream ended (`False`). -/
def readLines (brace : Int) (started : Bool) (acc : List (List Char)) :
    List (List Char) → List (List Char) × Bool
  | [] => (acc, false)
  | l :: rest =>
    let b := brace + lineDelta l
    let st := started || hasOpen l
    let acc2 := if st then acc ++ [l] else acc
    if st = true ∧ b = 0 then (acc2, true)
    else readLines b st acc2 rest

/-- The frame reader as called by `_send_command`: fresh counter, flag, and
accumulator. -/
def readResponse (ls : List (List Char)) : List (List Char) × Bool :=
  readLines 0 false [] ls

/-! ### Specification-side descriptions of the reader

Two closed-form descriptions of when a prefix of the line stream completes
a frame.  `doneAtClaim` transcribes the specified rule (counter returns to
zero *after having gone positive at least once*); `doneAt` is the amended
rule matching the code (counter returns to zero once *some left brace has
been seen*).  Both count every character consumed, including right braces
read before the first left brace. -/

/-- Net brace count of a list of lines. -/
def totalDelta (ls : List (List Char)) : Int :=
  (ls.map lineDelta).sum

/-- Some line of the list contains a left brace. -/
def sawOpen (ls : List (List Char)) : Bool :=
  ls.any hasOpen

/-- Starting from counter value `b`, does the running count become positive
at some character of the char stream? -/
def anyPos : Int → List Char → Bool
  | _, [] => false
  | b, c :: r =>
    let b2 := b + charDelta c
    decide (0 < b2) || anyPos b2 r

/-- The running brace count over the concatenated character stream of the
lines goes positive at some point. -/
def wentPos (ls : List (List Char)) : Bool :=
  anyPos 0 ls.flatten

/-- Amended completion test: after consuming lines `0..n`, a left brace has
been seen and the total count is zero. -/
def doneAt (ls : List (List Char)) (n : Nat) : Bool :=
  sawOpen (ls.take (n + 1)) && decide (totalDelta (ls.take (n + 1)) = 0)

/-- Claimed completion test: after consuming lines `0..n`, the running
count has gone positive at some character and the total count is zero. -/
def doneAtClaim (ls : List (List Char)) (n : Nat) : Bool :=
  wentPos (ls.take (n + 1)) && decide (totalDelta (ls.take (n + 1)) = 0)

/-- Closed-form reader induced by a completion test `d`: stop at the first
completing line; the text is the lines from the first line containing a
left brace through the completing line (all remaining such lines when no
prefix completes). -/
def specReadWith (d : List (List Char) → Nat → Bool) (ls : List (List Char)) :
    List (List Char) × Bool :=
  match (List.range ls.length).find? (d ls) with
  | some n => ((ls.take (n + 1)).dropWhile (fun l => !hasOpen l), true)
  | none => (ls.dropWhile (fun l => !hasOpen l), false)

/-- Closed-form reader under the amended (code-accurate) completion rule. -/
def specRead (ls : List (List Char)) : List (List Char) × Bool :=
  specReadWith doneAt ls

/-- Closed-form reader under the claimed completion rule. -/
def specReadClaim (ls : List (List Char)) : List (List Char) × Bool :=
  specReadWith doneAtClaim ls

/-! ## The process bridge (`FastDexEditor._ensure_process` / `_send_command`)

The external worker and the operating system are modelled by an
environment record: what `Popen` would do if invoked, whether a process is
currently held and whether it has exited (`poll() is not None`), how the
held process's streams behave, and which texts the JSON decoder accepts.
Python exceptions are modelled by `Except`: `Except.error` is an exception
propagating to the caller, `Except.ok` a returned value. -/

/-- Behaviour of one worker process's streams: whether writing the request
to stdin (and flushing) succeeds, the message of the exception otherwise,
and the lines `readline` yields before end-of-stream. -/
structure ProcIO where
  writeOk : Bool
  writeErr : List Char
  outLines : List (List Char)

/-- Environment of one `_send_command` call. -/
structure BridgeWorld where
  /-- Python `self.process is not None`. -/
  hasProcess : Bool
  /-- Python `self.process.poll() is not None` — the held process has exited. -/
  processExited : Bool
  /-- streams of the currently held process. -/
  heldIO : ProcIO
  /-- what `subprocess.Popen` does when called: raises, or yields a fresh
  process with the given streams. -/
  spawnResult : Except (List Char) ProcIO
  /-- does `json.loads` accept this text? -/
  decodeOk : List Char → Bool
  /-- parse diagnostic produced by `json.loads` on rejected text. -/
  decodeErr : List Char → List Char

/-- Result value of `_send_command` (never an exception): either the
decoded worker response — opaque to the bridge, carried as its text — or a
locally synthesized `success: False` error dictionary. -/
inductive SendOutcome where
  | parsed (text : List Char)
  | errorResult (msg : List Char)
deriving DecidableEq

/-- Method `_ensure_process`: keep the held process only if it exists and has not
exited; otherwise call `Popen`, whose exception (if any) propagates — this
call happens *outside* the `try` block of `_send_command`. -/
def ensureProcess (w : BridgeWorld) : Except (List Char) ProcIO :=
  if w.hasProcess = true ∧ w.processExited = false then Except.ok w.heldIO
  else w.spawnResult

/-- Method `_send_command`: ensure a live process, write the request, read the
framed response, decode it.  Everything after `_ensure_process` sits in a
`try`/`except` that converts any failure into an error result value. -/
def sendCommand (w : BridgeWorld) : Except (List Char) SendOutcome :=
  match ensureProcess w with
  | Except.error e => Except.error e
  | Except.ok io =>
    if io.writeOk = false then Except.ok (SendOutcome.errorResult io.writeErr)
    else
      let frame := (readResponse io.outLines).1
      if frame = [] then
        Except.ok (SendOutcome.errorResult ("No response from dex-editor".toList))
      else
        let text := frame.flatten
        if w.decodeOk text then Except.ok (SendOutcome.parsed text)
        else
          Except.ok (SendOutcome.errorResult
            ("JSON parse error: ".toList ++ w.decodeErr text))

/-! ## Smali text editing (`smali_utils.py`)

All three editing operations scan the document line by line.  A line
"matches" the target method when it contains the method marker and the
target name as substrings; a line "ends" a method when it strips to the
end marker exactly. -/

/-- The method-start marker. -/
def methodMarker : List Char := ".method".toList

/-- The method-end marker. -/
def endMarker : List Char := ".end method".toList

/-- Python `".method" in line and method_name in line`. -/
def isMatch (name l : List Char) : Bool :=
  containsSub methodMarker l && containsSub name l

/-- Python `line.strip() == ".end method"`. -/
def isEnd (l : List Char) : Bool :=
  decide (strip l = endMarker)

/-- Python `line.strip().startswith(".locals")`. -/
def stripStartsLocals (l : List Char) : Bool :=
  ".locals".toList.isPrefixOf (strip l)

/-- Error message of the not-found failures of the three editing operations. -/
def notFoundMsg (name : List Char) : List Char :=
  "Method not found: ".toList ++ name

/-- Result dictionary of `get_method_from_smali`; the failure dictionary
carries no line numbers. -/
structure ExtractResult where
  success : Bool
  method : List Char
  start_line : Option Nat
  end_line : Option Nat
  error : List Char
deriving DecidableEq

/-- Result dictionary of `replace_method_in_smali` / `insert_smali_code`. -/
structure EditResult where
  success : Bool
  content : List Char
  error : List Char
deriving DecidableEq

/-- Scan of `get_method_from_smali` while inside a method: `acc` is the
accumulated span, `sl` its recorded 1-based start line, `i` the 0-based
index of the next line.  A new matching start line restarts the
accumulation (the Python `if` branch takes priority); an end line returns
the inclusive span with its 1-based end line. -/
def gmIn (name : List Char) (acc : List (List Char)) (sl : Nat) :
    List (List Char) → Nat → Option (List (List Char) × Nat × Nat)
  | [], _ => none
  | l :: ls, i =>
    if isMatch name l then gmIn name [l] (i + 1) ls (i + 1)
    else if isEnd l then some (acc ++ [l], sl, i + 1)
    else gmIn name (acc ++ [l]) sl ls (i + 1)

/-- Scan of `get_method_from_smali` before any match. -/
def gmScan (name : List Char) : List (List Char) → Nat → Option (List (List Char) × Nat × Nat)
  | [], _ => none
  | l :: ls, i =>
    if isMatch name l then gmIn name [l] (i + 1) ls (i + 1)
    else gmScan name ls (i + 1)

/-- Python `get_method_from_smali(content, method_name)`. -/
def get_method_from_smali (content name : List Char) : ExtractResult :=
  match gmScan name (splitLines content) 0 with
  | some (mls, s, e) =>
    { success := true, method := joinLines mls,
      start_line := some s, end_line := some e, error := [] }
  | none =>
    { success := false, method := [], start_line := none, end_line := none,
      error := notFoundMsg name }

/-- Scan of `replace_method_in_smali`: on a matching line emit the
replacement text and enter skip mode; while skipping, an end line leaves
skip mode (the end line itself is dropped); otherwise copy the line.
Returns the emitted elements and the `method_replaced` flag. -/
def rpScan (name newB : List Char) : Bool → List (List Char) → List (List Char) × Bool
  | _, [] => ([], false)
  | inM, l :: ls =>
    if isMatch name l then
      let p := rpScan name newB true ls
      (newB :: p.1, true)
    else if inM then
      if isEnd l then rpScan name newB false ls else rpScan name newB true ls
    else
      let p := rpScan name newB false ls
      (l :: p.1, p.2)

/-- Python `replace_method_in_smali(content, method_name, new_method_body)`. -/
def replace_method_in_smali (content name newB : List Char) : EditResult :=
  let p := rpScan name newB false (splitLines content)
  if p.2 then { success := true, content := joinLines p.1, error := [] }
  else { success := false, content := [], error := notFoundMsg name }

/-- Position argument `"start"`. -/
def posStart : List Char := "start".toList

/-- Position argument `"end"`. -/
def posEnd : List Char := "end".toList

/-- Scan of `insert_smali_code`: every line is emitted; after a
locals-declaration line inside a matched method the code is emitted when
`position == "start"`; before an end line inside a matched method the code
is emitted when `position == "end"`.  Returns the emitted elements and the
`method_found` flag. -/
def insScan (name code pos : List Char) : Bool → List (List Char) → List (List Char) × Bool
  | _, [] => ([], false)
  | inM, l :: ls =>
    if isMatch name l then
      let p := insScan name code pos true ls
      (l :: p.1, true)
    else if inM then
      if pos = posStart ∧ stripStartsLocals l = true then
        let p := insScan name code pos true ls
        (l :: code :: p.1, p.2)
      else if isEnd l then
        let p := insScan name code pos false ls
        (if pos = posEnd then code :: l :: p.1 else l :: p.1, p.2)
      else
        let p := insScan name code pos true ls
        (l :: p.1, p.2)
    else
      let p := insScan name code pos false ls
      (l :: p.1, p.2)

/-- Python `insert_smali_code(content, method_name, code_to_insert, position)`. -/
def insert_smali_code (content name code pos : List Char) : EditResult :=
  let p := insScan name code pos false (splitLines content)
  if p.2 then { success := true, content := joinLines p.1, error := [] }
  else { success := false, content := [], error := notFoundMsg name }

/-- Formalization of the hypothesis of the silent no-op property: walking
the document with the same in-method discipline as `insert_smali_code`, no
line inside a matched method span strips to a locals declaration. -/
def noLocalsInSpans (name : List Char) : Bool → List (List Char) → Bool
  | _, [] => true
  | inM, l :: ls =>
    if isMatch name l then noLocalsInSpans name true ls
    else if inM then
      !stripStartsLocals l && noLocalsInSpans name (if isEnd l then false else true) ls
    else noLocalsInSpans name false ls

/-! ## The class parser (`parse_smali_class`)

The parser strips each line, classifies it by fixed prefixes, and runs a
`re.search` for each directive.  The searches below implement those fixed
patterns directly, with Python's matching discipline: leftmost starting
position; a greedy `+` tries the longest repetition first and backtracks;
a lazy `+?`/`*?` tries the shortest first.  `\w` is modelled as ASCII
letters, digits and underscore; `.` matches any character except newline
(irrelevant for stripped single lines, kept for fidelity). -/

/-- Character class `[\w/$]` of the smali type patterns. -/
def isWordChar (c : Char) : Bool :=
  c.isAlphanum || c == '_' || c == '/' || c == '$'

/-- Python `\S` — not whitespace. -/
def isNonSpace (c : Char) : Bool :=
  !isSpaceChar c

/-- Length of the maximal prefix of `l` satisfying `p`. -/
def runLen (p : Char → Bool) : List Char → Nat
  | [] => 0
  | c :: r => if p c then runLen p r + 1 else 0

/-- Backtracking for a greedy repetition: try consuming `n, n-1, …, 1`
characters of `l` (never zero), handing the consumed prefix and the rest
to the continuation; the first success wins. -/
def tryDown (l : List Char) (k : List Char → List Char → Option α) : Nat → Option α
  | 0 => none
  | n + 1 =>
    match k (l.take (n + 1)) (l.drop (n + 1)) with
    | some r => some r
    | none => tryDown l k n

/-- Greedy `p+` followed by the continuation. -/
def plusGreedy (p : Char → Bool) (l : List Char) (k : List Char → List Char → Option α) :
    Option α :=
  tryDown l k (runLen p l)

/-- Lazy `.+?` followed by the continuation: shortest group first, where
the group `g` accumulates the consumed characters (none may be a newline). -/
def lazyDotPlus (g : List Char) (k : List Char → List Char → Option α) :
    List Char → Option α
  | [] => none
  | c :: r =>
    if c = '\n' then none
    else
      match k (g ++ [c]) r with
      | some res => some res
      | none => lazyDotPlus (g ++ [c]) k r

/-- Lazy `.*?` followed by the continuation: try the continuation at the
current position first, then skip one (non-newline) character at a time. -/
def lazyDotStar (k : List Char → Option α) : List Char → Option α
  | [] => k []
  | l@(c :: r) =>
    match k l with
    | some res => some res
    | none => if c = '\n' then none else lazyDotStar k r

/-- Group `L[\w/$]+;` anchored at the current position.  The repetition
cannot cross the semicolon, so the maximal word-character run decides. -/
def classGroupAt : List Char → Option (List Char)
  | 'L' :: r =>
    let n := runLen isWordChar r
    if n = 0 then none
    else
      match r.drop n with
      | ';' :: _ => some ('L' :: (r.take n ++ [';']))
      | _ => none
  | _ => none

/-- Python `re.search(r"\.class\s+.*?(L[\w/$]+;)", line)`, returning group 1. -/
def classSearch : List Char → Option (List Char)
  | [] => none
  | l@(_ :: rest) =>
    match
      (if ".class".toList.isPrefixOf l then
        plusGreedy isSpaceChar (l.drop 6) (fun _ r => lazyDotStar classGroupAt r)
      else none) with
    | some g => some g
    | none => classSearch rest

/-- Python `re.search(r"\.super\s+(L[\w/$]+;)", line)`, returning group 1. -/
def superSearch : List Char → Option (List Char)
  | [] => none
  | l@(_ :: rest) =>
    match
      (if ".super".toList.isPrefixOf l then
        plusGreedy isSpaceChar (l.drop 6) (fun _ r => classGroupAt r)
      else none) with
    | some g => some g
    | none => superSearch rest

/-- Python `re.search(r"\.implements\s+(L[\w/$]+;)", line)`, returning group 1. -/
def implementsSearch : List Char → Option (List Char)
  | [] => none
  | l@(_ :: rest) =>
    match
      (if ".implements".toList.isPrefixOf l then
        plusGreedy isSpaceChar (l.drop 11) (fun _ r => classGroupAt r)
      else none) with
    | some g => some g
    | none => implementsSearch rest

/-- Group `"([^"]+)"` anchored at the current position: the repetition
cannot cross a quote, so the text up to the next quote decides. -/
def sourceGroupAt : List Char → Option (List Char)
  | '"' :: r =>
    let g := r.takeWhile (fun c => c != '"')
    if g = [] then none
    else
      match r.drop g.length with
      | '"' :: _ => some g
      | _ => none
  | _ => none

/-- Python `re.search(r"\.source\s+\"([^\"]+)\"", line)`, returning group 1. -/
def sourceSearch : List Char → Option (List Char)
  | [] => none
  | l@(_ :: rest) =>
    match
      (if ".source".toList.isPrefixOf l then
        plusGreedy isSpaceChar (l.drop 7) (fun _ r => sourceGroupAt r)
      else none) with
    | some g => some g
    | none => sourceSearch rest

/-- Tail `(\S+):(\S+)` of the field pattern at the current position. -/
def fieldTail (l : List Char) : Option (List Char × List Char) :=
  plusGreedy isNonSpace l (fun g2 r =>
    match r with
    | ':' :: r2 => plusGreedy isNonSpace r2 (fun g3 _ => some (g2, g3))
    | _ => none)

/-- The field pattern `\.field\s+(\S+)\s+(\S+):(\S+)` anchored at the
current position, returning groups (access, name, type). -/
def fieldSearchAt (l : List Char) : Option (List Char × List Char × List Char) :=
  if ".field".toList.isPrefixOf l then
    plusGreedy isSpaceChar (l.drop 6) (fun _ r =>
      plusGreedy isNonSpace r (fun g1 r2 =>
        plusGreedy isSpaceChar r2 (fun _ r3 =>
          (fieldTail r3).map (fun p => (g1, p.1, p.2)))))
  else none

/-- Python `re.search(r"\.field\s+(\S+)\s+(\S+):(\S+)", line)`. -/
def fieldSearch : List Char → Option (List Char × List Char × List Char)
  | [] => none
  | l@(_ :: rest) =>
    match fieldSearchAt l with
    | some g => some g
    | none => fieldSearch rest

/-- Tail `(\S+)\(([^)]*)\)(\S+)` of the method pattern at the current
position, returning groups (name, params, return type). -/
def methodTail (l : List Char) : Option (List Char × List Char × List Char) :=
  plusGreedy isNonSpace l (fun g2 r =>
    match r with
    | '(' :: r2 =>
      let g3 := r2.takeWhile (fun c => c != ')')
      (match r2.drop g3.length with
       | ')' :: r3 => plusGreedy isNonSpace r3 (fun g4 _ => some (g2, g3, g4))
       | _ => none)
    | _ => none)

/-- The method pattern `\.method\s+(.+?)\s+(\S+)\(([^)]*)\)(\S+)` anchored
at the current position, returning groups (access, name, params, return
type). -/
def methodSearchAt (l : List Char) :
    Option (List Char × List Char × List Char × List Char) :=
  if ".method".toList.isPrefixOf l then
    plusGreedy isSpaceChar (l.drop 7) (fun _ r =>
      lazyDotPlus [] (fun g1 r2 =>
        plusGreedy isSpaceChar r2 (fun _ r3 =>
          (methodTail r3).map (fun t => (g1, t.1, t.2.1, t.2.2)))) r)
  else none

/-- Python `re.search(r"\.method\s+(.+?)\s+(\S+)\(([^)]*)\)(\S+)", line)`. -/
def methodSearch : List Char → Option (List Char × List Char × List Char × List Char)
  | [] => none
  | l@(_ :: rest) =>
    match methodSearchAt l with
    | some g => some g
    | none => methodSearch rest

/-- One field entry `{access, name, type}`. -/
structure SmaliField where
  access : List Char
  name : List Char
  type : List Char
deriving DecidableEq

/-- The `current_method` dictionary between a method start and its close
(no body yet). -/
structure MethodOpen where
  access : List Char
  name : List Char
  params : List Char
  return_type : List Char
  full_signature : List Char
  start_line : Nat
deriving DecidableEq

/-- A closed method as stored in the result's `methods` list. -/
structure SmaliMethod where
  access : List Char
  name : List Char
  params : List Char
  return_type : List Char
  full_signature : List Char
  start_line : Nat
  body : List Char
  line_count : Nat
deriving DecidableEq

/-- The result dictionary of `parse_smali_class`. -/
structure SmaliClass where
  class_name : List Char
  super_class : List Char
  source_file : List Char
  interfaces : List (List Char)
  fields : List SmaliField
  methods : List SmaliMethod
deriving DecidableEq

/-- Full scanning state of `parse_smali_class`. -/
structure ParseState where
  result : SmaliClass
  current_method : Option MethodOpen
  method_lines : List (List Char)
deriving DecidableEq

/-- Close an open method into a stored method with its finalized body. -/
def closeMethod (c : MethodOpen) (ml : List (List Char)) : SmaliMethod :=
  { access := c.access, name := c.name, params := c.params,
    return_type := c.return_type, full_signature := c.full_signature,
    start_line := c.start_line, body := joinLines ml, line_count := ml.length }

/-- One iteration of the `parse_smali_class` loop on a raw line. -/
def parseLine (st : ParseState) (raw : List Char) : ParseState :=
  let line := strip raw
  if ".class".toList.isPrefixOf line then
    match classSearch line with
    | some g => { st with result := { st.result with class_name := g } }
    | none => st
  else if ".super".toList.isPrefixOf line then
    match superSearch line with
    | some g => { st with result := { st.result with super_class := g } }
    | none => st
  else if ".source".toList.isPrefixOf line then
    match sourceSearch line with
    | some g => { st with result := { st.result with source_file := g } }
    | none => st
  else if ".implements".toList.isPrefixOf line then
    match implementsSearch line with
    | some g =>
      { st with result := { st.result with interfaces := st.result.interfaces ++ [g] } }
    | none => st
  else if ".field".toList.isPrefixOf line then
    match fieldSearch line with
    | some g =>
      { st with result :=
          { st.result with fields :=
              st.result.fields ++ [{ access := g.1, name := g.2.1, type := g.2.2 }] } }
    | none => st
  else if ".method".toList.isPrefixOf line then
    match methodSearch line with
    | some g =>
      { st with
          current_method := some
            { access := g.1, name := g.2.1, params := g.2.2.1,
              return_type := g.2.2.2, full_signature := line,
              start_line := st.method_lines.length },
          method_lines := [line] }
    | none => st
  else if ".end method".toList.isPrefixOf line then
    match st.current_method with
    | some c =>
      { st with
          result := { st.result with
            methods := st.result.methods ++ [closeMethod c (st.method_lines ++ [line])] },
          current_method := none,
          method_lines := [] }
    | none => st
  else
    match st.current_method with
    | some _ => { st with method_lines := st.method_lines ++ [line] }
    | none => st

/-- The empty result the parser starts from. -/
def initState : ParseState :=
  { result := { class_name := [], super_class := [], source_file := [],
                interfaces := [], fields := [], methods := [] },
    current_method := none, method_lines := [] }

/-- Python `parse_smali_class(content)`. -/
def parse_smali_class (content : List Char) : SmaliClass :=
  ((splitLines content).foldl parseLine initState).result

/-! ## Lemmas: splitting and joining lines -/

theorem splitLines_ne_nil (s : List Char) : splitLines s ≠ [] := by
  induction s with
  | nil => simp [splitLines]
  | cons c rest ih =>
    by_cases hc : c = '\n'
    · simp [splitLines, hc]
    · rcases e : splitLines rest with _ | ⟨l, ls⟩
      · exact absurd e ih
      · simp [splitLines, hc, e]

theorem joinLines_cons (l : List Char) (ls : List (List Char)) (h : ls ≠ []) :
    joinLines (l :: ls) = l ++ '\n' :: joinLines ls := by
  rcases ls with _ | ⟨a, as⟩
  · exact absurd rfl h
  · simp [joinLines]

theorem splitLines_newline_append (a b : List Char) :
    splitLines (a ++ '\n' :: b) = splitLines a ++ splitLines b := by
  induction a with
  | nil => simp [splitLines]
  | cons c a' ih =>
    by_cases hc : c = '\n'
    · simp [splitLines, hc, ih]
    · rcases e : splitLines a' with _ | ⟨l, ls⟩
      · exact absurd e (splitLines_ne_nil a')
      · rw [List.cons_append]
        rw [splitLines, if_neg hc, ih, e]
        rw [splitLines, if_neg hc, e]
        rfl

theorem splitLines_no_newline (l : List Char) (h : '\n' ∉ l) : splitLines l = [l] := by
  induction l with
  | nil => rfl
  | cons c rest ih =>
    have hc : c ≠ '\n' := by
      intro e; exact h (by simp [e])
    have hr : '\n' ∉ rest := fun m => h (by simp [m])
    simp [splitLines, hc, ih hr]

theorem mem_splitLines_no_newline (s x : List Char) (h : x ∈ splitLines s) : '\n' ∉ x := by
  induction s generalizing x with
  | nil =>
    simp [splitLines] at h
    simp [h]
  | cons c rest ih =>
    by_cases hc : c = '\n'
    · rw [splitLines, if_pos hc] at h
      rcases List.mem_cons.mp h with h1 | h1
      · simp [h1]
      · exact ih x h1
    · rcases e : splitLines rest with _ | ⟨l, ls⟩
      · exact absurd e (splitLines_ne_nil rest)
      · rw [splitLines, if_neg hc, e] at h
        rcases List.mem_cons.mp h with h1 | h1
        · have hl : '\n' ∉ l := ih l (by rw [e]; exact List.mem_cons_self l ls)
          rw [h1]
          intro hm
          rcases List.mem_cons.mp hm with h2 | h2
          · exact hc h2.symm
          · exact hl h2
        · exact ih x (by rw [e]; exact List.mem_cons_of_mem l h1)

theorem joinLines_splitLines (s : List Char) : joinLines (splitLines s) = s := by
  induction s with
  | nil => simp [splitLines, joinLines]
  | cons c rest ih =>
    by_cases hc : c = '\n'
    · rcases e : splitLines rest with _ | ⟨l, ls⟩
      · exact absurd e (splitLines_ne_nil rest)
      · rw [splitLines, if_pos hc, e, joinLines_cons _ _ (by simp), hc]
        rw [e] at ih
        simp [ih]
    · rcases e : splitLines rest with _ | ⟨l, ls⟩
      · exact absurd e (splitLines_ne_nil rest)
      · rw [splitLines, if_neg hc, e]
        rw [e] at ih
        rcases ls with _ | ⟨m, ms⟩
        · simp only [joinLines] at ih ⊢
          rw [ih]
        · rw [joinLines_cons _ _ (by simp), List.cons_append]
          rw [joinLines_cons _ _ (by simp)] at ih
          rw [ih]

theorem splitLines_joinLines (L : List (List Char)) (hnl : ∀ x ∈ L, '\n' ∉ x)
    (hne : L ≠ []) : splitLines (joinLines L) = L := by
  induction L with
  | nil => exact absurd rfl hne
  | cons l L' ih =>
    rcases L' with _ | ⟨m, ms⟩
    · rw [joinLines]
      exact splitLines_no_newline l (hnl l (by simp))
    · rw [joinLines_cons _ _ (by simp), splitLines_newline_append,
        splitLines_no_newline l (hnl l (by simp))]
      rw [ih (fun x hx => hnl x (List.mem_cons_of_mem l hx)) (by simp)]
      rfl

theorem splitLines_joinLines_append (pre X : List (List Char))
    (hnl : ∀ x ∈ pre, '\n' ∉ x) (hX : X ≠ []) :
    splitLines (joinLines (pre ++ X)) = pre ++ splitLines (joinLines X) := by
  induction pre with
  | nil => simp
  | cons p pre' ih =>
    have hne : pre' ++ X ≠ [] := by
      intro e
      rcases List.append_eq_nil.mp e with ⟨_, e2⟩
      exact hX e2
    rw [List.cons_append, joinLines_cons _ _ hne, splitLines_newline_append,
      splitLines_no_newline p (hnl p (by simp)),
      ih (fun x hx => hnl x (List.mem_cons_of_mem p hx))]
    rfl

/-! ## Lemmas: the frame reader -/

theorem totalDelta_cons (l : List Char) (X : List (List Char)) :
    totalDelta (l :: X) = lineDelta l + totalDelta X := by
  simp [totalDelta]

theorem sawOpen_cons (l : List Char) (X : List (List Char)) :
    sawOpen (l :: X) = (hasOpen l || sawOpen X) := by
  simp [sawOpen]

/-- Characterization of the read loop from an arbitrary state: it stops
with `True` at the first line index `n` such that a left brace has been
seen within lines `0..n` (or before) and the running count is zero there,
keeping the lines from the first left brace on; with no such index it
drains the stream and reports `False`. -/
theorem readLines_eq (ls : List (List Char)) : ∀ (b : Int) (st : Bool) (acc : List (List Char)),
    readLines b st acc ls =
      match (List.range ls.length).find?
          (fun n => (st || sawOpen (ls.take (n + 1))) &&
            decide (b + totalDelta (ls.take (n + 1)) = 0)) with
      | some n =>
        (acc ++ (if st then ls.take (n + 1)
                 else (ls.take (n + 1)).dropWhile (fun l => !hasOpen l)), true)
      | none =>
        (acc ++ (if st then ls else ls.dropWhile (fun l => !hasOpen l)), false) := by
  induction ls with
  | nil =>
    intro b st acc
    cases st <;> simp [readLines]
  | cons l rest ih =>
    intro b st acc
    have hP0 : ((st || sawOpen ((l :: rest).take (0 + 1))) &&
        decide (b + totalDelta ((l :: rest).take (0 + 1)) = 0)) =
        ((st || hasOpen l) && decide (b + lineDelta l = 0)) := by
      simp [sawOpen_cons, totalDelta_cons, sawOpen, totalDelta]
    have hshift : ∀ n : Nat,
        ((st || sawOpen ((l :: rest).take (Nat.succ n + 1))) &&
          decide (b + totalDelta ((l :: rest).take (Nat.succ n + 1)) = 0)) =
        (((st || hasOpen l) || sawOpen (rest.take (n + 1))) &&
          decide ((b + lineDelta l) + totalDelta (rest.take (n + 1)) = 0)) := by
      intro n
      have ht : (l :: rest).take (Nat.succ n + 1) = l :: rest.take (n + 1) := by
        rw [Nat.succ_eq_add_one]
        exact List.take_succ_cons
      rw [ht, sawOpen_cons, totalDelta_cons, Bool.or_assoc, add_assoc]
    rw [List.length_cons, List.range_succ_eq_map, List.find?_cons]
    by_cases h0 : (st || hasOpen l) = true ∧ b + lineDelta l = 0
    · have hP0' : ((st || sawOpen ((l :: rest).take (0 + 1))) &&
          decide (b + totalDelta ((l :: rest).take (0 + 1)) = 0)) = true := by
        rw [hP0]
        simp [h0.1, h0.2]
      rw [hP0']
      simp only [readLines, if_pos h0]
      rcases h0 with ⟨h0a, h0b⟩
      cases st with
      | true => simp [List.take_succ_cons]
      | false =>
        have hl : hasOpen l = true := by simpa using h0a
        simp [List.take_succ_cons, List.dropWhile_cons, hl]
    · have hP0' : ((st || sawOpen ((l :: rest).take (0 + 1))) &&
          decide (b + totalDelta ((l :: rest).take (0 + 1)) = 0)) = false := by
        rw [hP0]
        rcases Decidable.not_and_iff_or_not.mp h0 with h | h
        · simp [Bool.eq_false_iff.mpr h]
        · simp [decide_eq_false h]
      rw [hP0']
      simp only [readLines, if_neg h0]
      rw [ih (b + lineDelta l) (st || hasOpen l) (if (st || hasOpen l) = true then acc ++ [l] else acc)]
      rw [List.find?_map]
      have hcomp : ((fun n => (st || sawOpen ((l :: rest).take (n + 1))) &&
            decide (b + totalDelta ((l :: rest).take (n + 1)) = 0)) ∘ Nat.succ) =
          (fun n => ((st || hasOpen l) || sawOpen (rest.take (n + 1))) &&
            decide ((b + lineDelta l) + totalDelta (rest.take (n + 1)) = 0)) := by
        funext n
        exact hshift n
      rw [hcomp]
      cases hf : (List.range rest.length).find?
          (fun n => ((st || hasOpen l) || sawOpen (rest.take (n + 1))) &&
            decide ((b + lineDelta l) + totalDelta (rest.take (n + 1)) = 0)) with
      | none =>
        simp only [Option.map_none']
        cases st with
        | true => simp
        | false =>
          cases hl : hasOpen l with
          | true => simp [List.dropWhile_cons, hl]
          | false => simp [List.dropWhile_cons, hl]
      | some n =>
        simp only [Option.map_some']
        have ht : (l :: rest).take (Nat.succ n + 1) = l :: rest.take (n + 1) := by
          rw [Nat.succ_eq_add_one]
          exact List.take_succ_cons
        rw [ht]
        cases st with
        | true => simp
        | false =>
          cases hl : hasOpen l with
          | true => simp [List.dropWhile_cons, hl]
          | false => simp [List.dropWhile_cons, hl]

/-- C1 (counterexample): the frame reader does NOT follow the claimed rule
"complete exactly when the count returns to zero after having gone positive
at least once".  On the single line consisting of a right brace followed by
a left brace, the counter never goes positive, yet the code stops and
declares the frame complete, because its `started` flag is set by merely
seeing a left brace while the count (which also absorbed the early right
brace) is back at zero. -/
theorem c1_counterexample :
    readResponse [[ '\x7d', '\x7b' ]] ≠ specReadClaim [[ '\x7d', '\x7b' ]] := by
  decide

/-- C1 (amended): the reader considers the response complete at the first
line boundary at which at least one left brace has been encountered and
the running count of left minus right braces over all characters seen
(including right braces read before the first left brace) equals zero —
the count need not ever have been positive; the response text is the
concatenation, in read order, of all lines from the line containing the
first left brace through the completing line (through the end of the
stream when no boundary completes). -/
theorem c1_reader_characterization (ls : List (List Char)) :
    readResponse ls = specRead ls := by
  rw [readResponse, readLines_eq]
  have hpred : (fun n => (false || sawOpen (ls.take (n + 1))) &&
      decide ((0 : Int) + totalDelta (ls.take (n + 1)) = 0)) = doneAt ls := by
    funext n
    simp [doneAt]
  rw [hpred]
  rw [specRead, specReadWith]
  cases hf : (List.range ls.length).find? (doneAt ls) <;> simp [hf]

/-- C2 (counterexample): a send CAN raise to its caller.  When the held
worker has exited and respawning fails (`subprocess.Popen` raising, e.g.
the Java binary is missing), the exception propagates, because
`_ensure_process` runs outside the `try` block of `_send_command`. -/
theorem c2_counterexample :
    sendCommand
      { hasProcess := true, processExited := true,
        heldIO := { writeOk := true, writeErr := [], outLines := [] },
        spawnResult := Except.error ("FileNotFoundError".toList),
        decodeOk := fun _ => true, decodeErr := fun _ => [] } =
      Except.error ("FileNotFoundError".toList) := by
  rfl

/-- C2 (amended): provided the spawn step does not itself raise — the held
process is still live, or `Popen` succeeds so a fresh worker is obtained —
a send returns a success/failure result value and never raises: write
failures, an empty response, and decode failures are all converted into
error result values inside the handler. -/
theorem c2_send_returns_result (w : BridgeWorld)
    (h : (w.hasProcess = true ∧ w.processExited = false) ∨
      ∃ io, w.spawnResult = Except.ok io) :
    ∃ r, sendCommand w = Except.ok r := by
  have hio : ∃ io, ensureProcess w = Except.ok io := by
    rcases h with h | ⟨io, hs⟩
    · exact ⟨w.heldIO, by rw [ensureProcess, if_pos h]⟩
    · by_cases hp : w.hasProcess = true ∧ w.processExited = false
      · exact ⟨w.heldIO, by rw [ensureProcess, if_pos hp]⟩
      · exact ⟨io, by rw [ensureProcess, if_neg hp]; exact hs⟩
  rcases hio with ⟨io, hio⟩
  rw [sendCommand, hio]
  dsimp only
  split
  · exact ⟨_, rfl⟩
  · split
    · exact ⟨_, rfl⟩
    · split
      · exact ⟨_, rfl⟩
      · exact ⟨_, rfl⟩

/-- C2 (witness): the amended theorem applied to a concrete environment —
the held worker was killed externally, the respawn succeeds, and the call
returns a result value. -/
theorem c2_witness :
    ∃ r, sendCommand
      { hasProcess := true, processExited := true,
        heldIO := { writeOk := true, writeErr := [], outLines := [] },
        spawnResult := Except.ok
          { writeOk := true, writeErr := [],
            outLines := [[ '\x7b', '\x7d' ]] },
        decodeOk := fun _ => true, decodeErr := fun _ => [] } =
      Except.ok r :=
  c2_send_returns_result _ (Or.inr ⟨_, rfl⟩)

/-! ## Lemmas: the extraction scan (`get_method_from_smali`) -/

theorem gmScan_append_not_matched (name : List Char) (pre : List (List Char))
    (hpre : ∀ l ∈ pre, isMatch name l = false) :
    ∀ (rest : List (List Char)) (i : Nat),
      gmScan name (pre ++ rest) i = gmScan name rest (i + pre.length) := by
  induction pre with
  | nil => intro rest i; simp
  | cons l pre' ih =>
    intro rest i
    have hl : isMatch name l = false := hpre l (by simp)
    have hl' : ¬(isMatch name l = true) := by simp [hl]
    rw [List.cons_append, gmScan, if_neg hl']
    rw [ih (fun x hx => hpre x (List.mem_cons_of_mem l hx)) rest (i + 1)]
    have harith : i + 1 + pre'.length = i + (l :: pre').length := by
      simp only [List.length_cons]
      omega
    rw [harith]

theorem gmIn_append_skip (name : List Char) (mid : List (List Char))
    (hmid : ∀ l ∈ mid, isMatch name l = false ∧ isEnd l = false) :
    ∀ (acc rest : List (List Char)) (sl i : Nat),
      gmIn name acc sl (mid ++ rest) i = gmIn name (acc ++ mid) sl rest (i + mid.length) := by
  induction mid with
  | nil => intro acc rest sl i; simp
  | cons l mid' ih =>
    intro acc rest sl i
    have hl := hmid l (by simp)
    have hl1 : ¬(isMatch name l = true) := by simp [hl.1]
    have hl2 : ¬(isEnd l = true) := by simp [hl.2]
    rw [List.cons_append, gmIn, if_neg hl1, if_neg hl2]
    rw [ih (fun x hx => hmid x (List.mem_cons_of_mem l hx)) (acc ++ [l]) rest sl (i + 1)]
    have h1 : acc ++ [l] ++ mid' = acc ++ l :: mid' := by simp
    have h2 : i + 1 + mid'.length = i + (l :: mid').length := by
      simp only [List.length_cons]
      omega
    rw [h1, h2]

theorem gmIn_cons_end (name e : List Char) (hm : isMatch name e = false)
    (he : isEnd e = true) (acc : List (List Char)) (rest : List (List Char)) (sl i : Nat) :
    gmIn name acc sl (e :: rest) i = some (acc ++ [e], sl, i + 1) := by
  rw [gmIn, if_neg (by simp [hm]), if_pos he]

theorem gmIn_pres (name : List Char) (P : List Char → Prop) :
    ∀ (rest acc : List (List Char)) (sl i : Nat) (mls : List (List Char)) (s en : Nat),
      gmIn name acc sl rest i = some (mls, s, en) →
      (∀ l ∈ acc, P l) → (∀ l ∈ rest, P l) → ∀ l ∈ mls, P l := by
  intro rest
  induction rest with
  | nil => intro acc sl i mls s en h; rw [gmIn] at h; exact absurd h (by simp)
  | cons l ls ih =>
    intro acc sl i mls s en h hacc hrest
    rw [gmIn] at h
    by_cases h1 : isMatch name l = true
    · rw [if_pos h1] at h
      exact ih [l] (i + 1) (i + 1) mls s en h
        (by intro x hx; rw [List.mem_singleton] at hx; exact hx ▸ hrest l (by simp))
        (fun x hx => hrest x (List.mem_cons_of_mem l hx))
    · rw [if_neg h1] at h
      by_cases h2 : isEnd l = true
      · rw [if_pos h2] at h
        simp only [Option.some.injEq, Prod.mk.injEq] at h
        obtain ⟨hmls0, _, _⟩ := h
        have hmls : mls = acc ++ [l] := hmls0.symm
        intro x hx
        rw [hmls] at hx
        rcases List.mem_append.mp hx with hx | hx
        · exact hacc x hx
        · rw [List.mem_singleton] at hx
          exact hx ▸ hrest l (by simp)
      · rw [if_neg h2] at h
        exact ih (acc ++ [l]) sl (i + 1) mls s en h
          (by
            intro x hx
            rcases List.mem_append.mp hx with hx | hx
            · exact hacc x hx
            · rw [List.mem_singleton] at hx
              exact hx ▸ hrest l (by simp))
          (fun x hx => hrest x (List.mem_cons_of_mem l hx))

theorem gmIn_shape (name : List Char) :
    ∀ (rest acc : List (List Char)) (sl i : Nat) (mls : List (List Char)) (s en : Nat),
      gmIn name acc sl rest i = some (mls, s, en) →
      ∃ a interior lend, mls = a ++ interior ++ [lend] ∧
        (∀ l ∈ interior, isMatch name l = false ∧ isEnd l = false) ∧
        isMatch name lend = false ∧ isEnd lend = true ∧
        (a = acc ∨ ∃ m, isMatch name m = true ∧ a = [m]) := by
  intro rest
  induction rest with
  | nil => intro acc sl i mls s en h; rw [gmIn] at h; exact absurd h (by simp)
  | cons l ls ih =>
    intro acc sl i mls s en h
    rw [gmIn] at h
    by_cases h1 : isMatch name l = true
    · rw [if_pos h1] at h
      rcases ih [l] (i + 1) (i + 1) mls s en h with
        ⟨a, interior, lend, he, hint, hlm, hle, ha⟩
      refine ⟨a, interior, lend, he, hint, hlm, hle, Or.inr ?_⟩
      rcases ha with ha | ⟨m, hm, ha⟩
      · exact ⟨l, h1, ha⟩
      · exact ⟨m, hm, ha⟩
    · rw [if_neg h1] at h
      have h1f : isMatch name l = false := by simpa using h1
      by_cases h2 : isEnd l = true
      · rw [if_pos h2] at h
        simp only [Option.some.injEq, Prod.mk.injEq] at h
        obtain ⟨hmls0, _, _⟩ := h
        exact ⟨acc, [], l, by simp [hmls0.symm], by simp, h1f, h2, Or.inl rfl⟩
      · rw [if_neg h2] at h
        have h2f : isEnd l = false := by simpa using h2
        rcases ih (acc ++ [l]) sl (i + 1) mls s en h with
          ⟨a, interior, lend, he, hint, hlm, hle, ha⟩
        rcases ha with ha | ⟨m, hm, ha⟩
        · refine ⟨acc, l :: interior, lend, ?_, ?_, hlm, hle, Or.inl rfl⟩
          · rw [he, ha]
            simp
          · intro x hx
            rcases List.mem_cons.mp hx with hx | hx
            · exact hx ▸ ⟨h1f, h2f⟩
            · exact hint x hx
        · exact ⟨a, interior, lend, he, hint, hlm, hle, Or.inr ⟨m, hm, ha⟩⟩

theorem gmScan_decomp (name : List Char) :
    ∀ (lines : List (List Char)) (i : Nat) (r : List (List Char) × Nat × Nat),
      gmScan name lines i = some r →
      ∃ pre m rest, lines = pre ++ m :: rest ∧
        (∀ l ∈ pre, isMatch name l = false) ∧ isMatch name m = true ∧
        gmIn name [m] (i + pre.length + 1) rest (i + pre.length + 1) = some r := by
  intro lines
  induction lines with
  | nil => intro i r h; rw [gmScan] at h; exact absurd h (by simp)
  | cons l ls ih =>
    intro i r h
    rw [gmScan] at h
    by_cases h1 : isMatch name l = true
    · rw [if_pos h1] at h
      exact ⟨[], l, ls, by simp, by simp, h1, by simpa using h⟩
    · rw [if_neg h1] at h
      have h1f : isMatch name l = false := by simpa using h1
      rcases ih (i + 1) r h with ⟨pre, m, rest, he, hpre, hm, hin⟩
      refine ⟨l :: pre, m, rest, by rw [he]; rfl, ?_, hm, ?_⟩
      · intro x hx
        rcases List.mem_cons.mp hx with hx | hx
        · exact hx ▸ h1f
        · exact hpre x hx
      · have : i + 1 + pre.length = i + (l :: pre).length := by simp; omega
        rw [← this]
        exact hin

theorem gmScan_none_of_no_match (name : List Char) (lines : List (List Char))
    (h : ∀ l ∈ lines, isMatch name l = false) :
    ∀ i, gmScan name lines i = none := by
  induction lines with
  | nil => intro i; rfl
  | cons l ls ih =>
    intro i
    rw [gmScan, if_neg (by simp [h l (by simp)])]
    exact ih (fun x hx => h x (List.mem_cons_of_mem l hx)) (i + 1)

/-! ## Lemmas: the replacement scan (`replace_method_in_smali`) -/

theorem rpScan_append_not_matched (name newB : List Char) (pre : List (List Char))
    (hpre : ∀ l ∈ pre, isMatch name l = false) :
    ∀ rest, rpScan name newB false (pre ++ rest) =
      (pre ++ (rpScan name newB false rest).1, (rpScan name newB false rest).2) := by
  induction pre with
  | nil => intro rest; simp
  | cons l pre' ih =>
    intro rest
    rw [List.cons_append, rpScan, if_neg (by simp [hpre l (by simp)]),
      if_neg Bool.false_ne_true]
    rw [ih (fun x hx => hpre x (List.mem_cons_of_mem l hx)) rest]
    simp

theorem rpScan_cons_match (name newB m : List Char) (hm : isMatch name m = true)
    (inM : Bool) (rest : List (List Char)) :
    rpScan name newB inM (m :: rest) =
      (newB :: (rpScan name newB true rest).1, true) := by
  rw [rpScan, if_pos hm]

theorem rpScan_skip (name newB : List Char) (mid : List (List Char))
    (hmid : ∀ l ∈ mid, isMatch name l = false ∧ isEnd l = false) :
    ∀ rest, rpScan name newB true (mid ++ rest) = rpScan name newB true rest := by
  induction mid with
  | nil => intro rest; simp
  | cons l mid' ih =>
    intro rest
    have hl := hmid l (by simp)
    rw [List.cons_append, rpScan, if_neg (by simp [hl.1]), if_pos rfl,
      if_neg (by simp [hl.2])]
    exact ih (fun x hx => hmid x (List.mem_cons_of_mem l hx)) rest

theorem rpScan_cons_end (name newB e : List Char) (hm : isMatch name e = false)
    (he : isEnd e = true) (rest : List (List Char)) :
    rpScan name newB true (e :: rest) = rpScan name newB false rest := by
  rw [rpScan, if_neg (by simp [hm]), if_pos rfl, if_pos he]

theorem rpScan_no_match (name newB : List Char) (ls : List (List Char))
    (h : ∀ l ∈ ls, isMatch name l = false) :
    rpScan name newB false ls = (ls, false) := by
  induction ls with
  | nil => rfl
  | cons l ls' ih =>
    rw [rpScan, if_neg (by simp [h l (by simp)]), if_neg Bool.false_ne_true]
    rw [ih (fun x hx => h x (List.mem_cons_of_mem l hx))]

theorem rpScan_drop_tail (name newB : List Char) (ls : List (List Char))
    (h : ∀ l ∈ ls, isMatch name l = false ∧ isEnd l = false) :
    rpScan name newB true ls = ([], false) := by
  have := rpScan_skip name newB ls h []
  simpa using this

/-! ## Lemmas: the insertion scan (`insert_smali_code`) -/

theorem insScan_no_match (name code pos : List Char) (ls : List (List Char))
    (h : ∀ l ∈ ls, isMatch name l = false) :
    insScan name code pos false ls = (ls, false) := by
  induction ls with
  | nil => rfl
  | cons l ls' ih =>
    rw [insScan, if_neg (by simp [h l (by simp)]), if_neg Bool.false_ne_true]
    rw [ih (fun x hx => h x (List.mem_cons_of_mem l hx))]

theorem insScan_other_pos (name code pos : List Char) (hs : pos ≠ posStart)
    (he : pos ≠ posEnd) (ls : List (List Char)) :
    ∀ inM, insScan name code pos inM ls = (ls, ls.any (isMatch name)) := by
  induction ls with
  | nil => intro inM; simp [insScan]
  | cons l ls' ih =>
    intro inM
    rw [insScan, List.any_cons]
    by_cases h1 : isMatch name l = true
    · simp only [h1, if_pos, ih true]
      simp
    · rw [Bool.not_eq_true] at h1
      simp only [h1]
      cases inM with
      | false =>
        rw [ih false]
        simp
      | true =>
        have hns : ¬(pos = posStart ∧ stripStartsLocals l = true) := fun hc => hs hc.1
        simp only [if_neg hns, if_pos]
        by_cases h2 : isEnd l = true
        · simp only [h2, if_pos, if_neg he, ih false]
          simp
        · rw [Bool.not_eq_true] at h2
          simp only [h2, ih true]
          simp

theorem insScan_start_no_locals (name code : List Char) (ls : List (List Char)) :
    ∀ inM, noLocalsInSpans name inM ls = true →
      insScan name code posStart inM ls = (ls, ls.any (isMatch name)) := by
  induction ls with
  | nil => intro inM _; simp [insScan]
  | cons l ls' ih =>
    intro inM hnl
    rw [noLocalsInSpans] at hnl
    rw [insScan, List.any_cons]
    by_cases h1 : isMatch name l = true
    · rw [if_pos h1] at hnl ⊢
      rw [ih true hnl, h1]
      simp
    · rw [if_neg h1] at hnl ⊢
      have h1f : isMatch name l = false := by simpa using h1
      cases inM with
      | false =>
        rw [if_neg Bool.false_ne_true] at hnl ⊢
        rw [ih false hnl, h1f]
        simp
      | true =>
        rw [if_pos rfl] at hnl ⊢
        rw [Bool.and_eq_true] at hnl
        obtain ⟨hloc, hrec⟩ := hnl
        have hloc' : stripStartsLocals l = false := by simpa using hloc
        have hns : ¬(posStart = posStart ∧ stripStartsLocals l = true) := by
          intro hc
          rw [hc.2] at hloc'
          exact absurd hloc' (by simp)
        rw [if_neg hns]
        by_cases h2 : isEnd l = true
        · rw [if_pos h2] at hrec ⊢
          have hse : ¬(posStart = posEnd) := by decide
          rw [ih false hrec, h1f]
          simp [hse]
        · rw [if_neg h2] at hrec ⊢
          rw [ih true hrec, h1f]
          simp

/-- C5: on a document in which no method-start line contains the target
name as a substring, extract, replace and insert all return a failure
result carrying the "method not found" indication; all three are pure
functions of the document, whose failure results carry no modified
content, so the input document is untouched. -/
theorem c5_not_found (content name code pos : List Char)
    (h : ∀ l ∈ splitLines content, isMatch name l = false) :
    get_method_from_smali content name =
      { success := false, method := [], start_line := none, end_line := none,
        error := notFoundMsg name } ∧
    replace_method_in_smali content name code =
      { success := false, content := [], error := notFoundMsg name } ∧
    insert_smali_code content name code pos =
      { success := false, content := [], error := notFoundMsg name } := by
  refine ⟨?_, ?_, ?_⟩
  · rw [get_method_from_smali, gmScan_none_of_no_match name _ h 0]
  · rw [replace_method_in_smali, rpScan_no_match name code _ h]
    rfl
  · rw [insert_smali_code, insScan_no_match name code pos _ h]
    rfl

set_option maxRecDepth 8000 in
/-- C5 (witness): the not-found behaviour on a concrete two-line document
with no method at all. -/
theorem c5_witness :
    get_method_from_smali ("hello\nworld".toList) ("foo".toList) =
      { success := false, method := [], start_line := none, end_line := none,
        error := notFoundMsg ("foo".toList) } ∧
    replace_method_in_smali ("hello\nworld".toList) ("foo".toList) ("x".toList) =
      { success := false, content := [], error := notFoundMsg ("foo".toList) } ∧
    insert_smali_code ("hello\nworld".toList) ("foo".toList) ("x".toList) posStart =
      { success := false, content := [], error := notFoundMsg ("foo".toList) } :=
  c5_not_found ("hello\nworld".toList) ("foo".toList) ("x".toList) posStart (by decide)

set_option maxRecDepth 8000 in
/-- C7: the concrete start-insertion scenario — inserting a constant load
after the locals line of `foo` produces exactly the expected five-line
document. -/
theorem c7_concrete_insert_start :
    insert_smali_code
      (".method public foo()V\n.locals 1\nreturn-void\n.end method".toList)
      ("foo".toList) ("const/4 v0, 0x0".toList) posStart =
      { success := true,
        content :=
          (".method public foo()V\n.locals 1\nconst/4 v0, 0x0\nreturn-void\n.end method".toList),
        error := [] } := by
  decide

set_option maxRecDepth 8000 in
/-- C4 (counterexample): with a position argument that is neither start
nor end, insertCode does NOT return a structured failure — it reports
success with an empty error and hands back the document unchanged. -/
theorem c4_counterexample :
    (insert_smali_code
      (".method public foo()V\n.locals 1\nreturn-void\n.end method".toList)
      ("foo".toList) ("const/4 v0, 0x0".toList) ("middle".toList)).success = true ∧
    (insert_smali_code
      (".method public foo()V\n.locals 1\nreturn-void\n.end method".toList)
      ("foo".toList) ("const/4 v0, 0x0".toList) ("middle".toList)).error = [] := by
  decide

/-- C4 (amended): for every document containing a method matching the
target name, and every position argument other than start and end,
insertCode returns success with the content unchanged and an empty error —
there is no validation of the position argument, so unsupported values are
a silent no-op rather than a structured failure (and no exception is ever
raised). -/
theorem c4_invalid_position_silent_noop (content name code pos : List Char)
    (hs : pos ≠ posStart) (he : pos ≠ posEnd)
    (hm : (splitLines content).any (isMatch name) = true) :
    insert_smali_code content name code pos =
      { success := true, content := content, error := [] } := by
  rw [insert_smali_code, insScan_other_pos name code pos hs he _ false]
  simp [hm, joinLines_splitLines]

set_option maxRecDepth 8000 in
/-- C4 (witness): the amended behaviour at a concrete document and the
position argument "middle". -/
theorem c4_witness :
    insert_smali_code
      (".method public foo()V\n.locals 1\nreturn-void\n.end method".toList)
      ("foo".toList) ("const/4 v0, 0x0".toList) ("middle".toList) =
      { success := true,
        content := (".method public foo()V\n.locals 1\nreturn-void\n.end method".toList),
        error := [] } :=
  c4_invalid_position_silent_noop _ _ _ _ (by decide) (by decide) (by decide)

/-- C9: with position start, when no line inside a matched method span is
a locals declaration, insertCode succeeds and returns the document
unchanged — the insertion anchor is never reached, a silent no-op. -/
theorem c9_silent_noop (content name code : List Char)
    (hm : (splitLines content).any (isMatch name) = true)
    (hnl : noLocalsInSpans name false (splitLines content) = true) :
    insert_smali_code content name code posStart =
      { success := true, content := content, error := [] } := by
  rw [insert_smali_code, insScan_start_no_locals name code _ false hnl]
  simp [hm, joinLines_splitLines]

set_option maxRecDepth 8000 in
/-- C9 (witness): a concrete method with no locals declaration is left
untouched by a start insertion, which still reports success. -/
theorem c9_witness :
    insert_smali_code
      (".method public foo()V\nreturn-void\n.end method".toList)
      ("foo".toList) ("const/4 v0, 0x0".toList) posStart =
      { success := true,
        content := (".method public foo()V\nreturn-void\n.end method".toList),
        error := [] } :=
  c9_silent_noop _ _ _ (by decide) (by decide)

set_option maxRecDepth 8000 in
/-- C3 (counterexample): replaceMethod does not stop after the first
matching method.  With two methods whose start lines both contain the
target name, the second span is replaced as well: the result is two copies
of the replacement, and the lines of the second method — which sit after
the first method's end marker — are not preserved. -/
theorem c3_counterexample :
    (replace_method_in_smali
      (".method public foo()V\n.end method\n.method public foo2()V\n.end method".toList)
      ("foo".toList) ("R".toList)).content = ("R\nR".toList) ∧
    ("R\nR".toList : List Char) ≠ ("R\n.method public foo2()V\n.end method".toList) := by
  decide

/-- C3 (amended): when exactly one line of the document is a matching
method-start line and its span is closed by an end-marker line,
replaceMethod replaces that method's inclusive span with the replacement
text; every line before the matching start line and every line after the
end marker is preserved unchanged. -/
theorem c3_unique_match_replace (pre mid post : List (List Char))
    (m e name newB : List Char)
    (hnl : ∀ l ∈ pre ++ m :: (mid ++ e :: post), '\n' ∉ l)
    (hpre : ∀ l ∈ pre, isMatch name l = false)
    (hm : isMatch name m = true)
    (hmid : ∀ l ∈ mid, isMatch name l = false ∧ isEnd l = false)
    (hem : isMatch name e = false) (he : isEnd e = true)
    (hpost : ∀ l ∈ post, isMatch name l = false) :
    replace_method_in_smali (joinLines (pre ++ m :: (mid ++ e :: post))) name newB =
      { success := true, content := joinLines (pre ++ newB :: post), error := [] } := by
  rw [replace_method_in_smali, splitLines_joinLines _ hnl (by simp)]
  rw [rpScan_append_not_matched name newB pre hpre]
  rw [rpScan_cons_match name newB m hm false]
  rw [rpScan_skip name newB mid hmid]
  rw [rpScan_cons_end name newB e hem he]
  rw [rpScan_no_match name newB post hpost]
  simp

/-- C3 (witness): the amended replacement on a concrete document with a
unique matching method, a preceding line and a trailing line. -/
theorem c3_witness :
    replace_method_in_smali
      (joinLines ["head".toList, ".method public foo()V".toList, "body".toList,
        ".end method".toList, "tail".toList])
      ("foo".toList) ("NEW".toList) =
      { success := true, content := joinLines ["head".toList, "NEW".toList, "tail".toList],
        error := [] } :=
  c3_unique_match_replace ["head".toList] ["body".toList] ["tail".toList]
    (".method public foo()V".toList) (".end method".toList) ("foo".toList) ("NEW".toList)
    (by decide) (by decide) (by decide) (by decide) (by decide) (by decide) (by decide)

set_option maxRecDepth 8000 in
/-- C10 (counterexample): on a document with two matching start lines and
no end marker, the result is two copies of the replacement text, not a
single one: the dropped region is replaced once per matching line
encountered. -/
theorem c10_counterexample :
    (replace_method_in_smali (".method foo()V\n.method foo()V".toList)
      ("foo".toList) ("X".toList)).content = ("X\nX".toList) ∧
    ("X\nX".toList : List Char) ≠ ("X".toList) := by
  decide

/-- C10 (amended): when exactly one line matches the target and no
subsequent line trims to the end marker, replaceMethod still returns
success; every line from the matching start line through the end of the
document is dropped and replaced by the supplied replacement text alone,
and the preceding lines are preserved. -/
theorem c10_unterminated_replace (pre rest : List (List Char)) (m name newB : List Char)
    (hnl : ∀ l ∈ pre ++ m :: rest, '\n' ∉ l)
    (hpre : ∀ l ∈ pre, isMatch name l = false)
    (hm : isMatch name m = true)
    (hrest : ∀ l ∈ rest, isMatch name l = false ∧ isEnd l = false) :
    replace_method_in_smali (joinLines (pre ++ m :: rest)) name newB =
      { success := true, content := joinLines (pre ++ [newB]), error := [] } := by
  rw [replace_method_in_smali, splitLines_joinLines _ hnl (by simp)]
  rw [rpScan_append_not_matched name newB pre hpre]
  rw [rpScan_cons_match name newB m hm false]
  rw [rpScan_drop_tail name newB rest hrest]
  simp

/-- C10 (witness): the amended behaviour on a concrete document whose
matched method is never closed: the trailing line is dropped, the
preceding line kept. -/
theorem c10_witness :
    replace_method_in_smali
      (joinLines ["head".toList, ".method public foo()V".toList, "trailing".toList])
      ("foo".toList) ("X".toList) =
      { success := true, content := joinLines ["head".toList, "X".toList], error := [] } :=
  c10_unterminated_replace ["head".toList] ["trailing".toList]
    (".method public foo()V".toList) ("foo".toList) ("X".toList)
    (by decide) (by decide) (by decide) (by decide)

/-- C6: extract ⇄ replace round trip.  If extraction of the target method
from a document succeeds with span text B, then replacing the method by B
succeeds, and extracting from the replaced document returns exactly B.
This holds although the replacement scan may substitute several matching
spans: every substituted copy is B itself, and the extraction scan stops at
the first one. -/
theorem c6_round_trip (content name : List Char)
    (h : (get_method_from_smali content name).success = true) :
    (replace_method_in_smali content name
      (get_method_from_smali content name).method).success = true ∧
    (get_method_from_smali
      (replace_method_in_smali content name
        (get_method_from_smali content name).method).content name).success = true ∧
    (get_method_from_smali
      (replace_method_in_smali content name
        (get_method_from_smali content name).method).content name).method =
      (get_method_from_smali content name).method := by
  rcases e : gmScan name (splitLines content) 0 with _ | ⟨⟨mls, s, en⟩⟩
  · rw [get_method_from_smali, e] at h
    simp at h
  have hB : (get_method_from_smali content name).method = joinLines mls := by
    rw [get_method_from_smali, e]
  obtain ⟨pre, m0, rest, hdec, hpre, hm0, hin⟩ := gmScan_decomp name (splitLines content) 0 _ e
  obtain ⟨a, interior, lend, hmlseq, hint, hlendm, hlende, ha⟩ :=
    gmIn_shape name rest [m0] (0 + pre.length + 1) (0 + pre.length + 1) mls s en hin
  obtain ⟨mh, hmhm, hmls⟩ :
      ∃ mh, isMatch name mh = true ∧ mls = mh :: (interior ++ [lend]) := by
    rcases ha with ha | ⟨m', hm', ha⟩
    · exact ⟨m0, hm0, by rw [hmlseq, ha]; simp⟩
    · exact ⟨m', hm', by rw [hmlseq, ha]; simp⟩
  have hnlall : ∀ l ∈ splitLines content, '\n' ∉ l :=
    fun l hl => mem_splitLines_no_newline content l hl
  have hprenl : ∀ l ∈ pre, '\n' ∉ l := by
    intro l hl
    exact hnlall l (by rw [hdec]; exact List.mem_append.mpr (Or.inl hl))
  have hm0mem : m0 ∈ splitLines content := by rw [hdec]; simp
  have hmlsnl : ∀ l ∈ mls, '\n' ∉ l := by
    apply gmIn_pres name (fun l => '\n' ∉ l) rest [m0] (0 + pre.length + 1)
      (0 + pre.length + 1) mls s en hin
    · intro x hx
      rw [List.mem_singleton] at hx
      exact hx ▸ hnlall m0 hm0mem
    · intro x hx
      apply hnlall
      rw [hdec]
      exact List.mem_append.mpr (Or.inr (List.mem_cons_of_mem _ hx))
  have hmlsne : mls ≠ [] := by rw [hmls]; simp
  obtain ⟨T, hT⟩ : ∃ T, (rpScan name (joinLines mls) true rest).1 = T := ⟨_, rfl⟩
  have hrp : rpScan name (joinLines mls) false (splitLines content) =
      (pre ++ joinLines mls :: T, true) := by
    rw [hdec, rpScan_append_not_matched name _ pre hpre,
      rpScan_cons_match name _ m0 hm0 false, hT]
  have hrepl : replace_method_in_smali content name (joinLines mls) =
      { success := true, content := joinLines (pre ++ joinLines mls :: T),
        error := [] } := by
    rw [replace_method_in_smali, hrp]
    rfl
  obtain ⟨suf, hsplit2⟩ :
      ∃ suf, splitLines (joinLines (pre ++ joinLines mls :: T)) =
        pre ++ mh :: (interior ++ lend :: suf) := by
    have hpre2 := splitLines_joinLines_append pre (joinLines mls :: T) hprenl (by simp)
    rcases T with _ | ⟨t, T'⟩
    · refine ⟨[], ?_⟩
      rw [hpre2]
      have h1 : joinLines [joinLines mls] = joinLines mls := by simp [joinLines]
      rw [h1, splitLines_joinLines mls hmlsnl hmlsne, hmls]
    · refine ⟨splitLines (joinLines (t :: T')), ?_⟩
      rw [hpre2, joinLines_cons _ _ (by simp), splitLines_newline_append,
        splitLines_joinLines mls hmlsnl hmlsne, hmls]
      simp
  have hscan2 : gmScan name (pre ++ mh :: (interior ++ lend :: suf)) 0 =
      some (mls, 0 + pre.length + 1, 0 + pre.length + 1 + interior.length + 1) := by
    rw [gmScan_append_not_matched name pre hpre _ 0]
    rw [gmScan, if_pos hmhm]
    rw [gmIn_append_skip name interior hint [mh] (lend :: suf) _ _]
    rw [gmIn_cons_end name lend hlendm hlende]
    rw [hmls]
    simp
  refine ⟨?_, ?_, ?_⟩
  · rw [hB, hrepl]
  · rw [hB, hrepl]
    rw [get_method_from_smali]
    rw [show (EditResult.mk true (joinLines (pre ++ joinLines mls :: T)) []).content =
      joinLines (pre ++ joinLines mls :: T) from rfl]
    rw [hsplit2, hscan2]
  · rw [hB, hrepl]
    rw [get_method_from_smali]
    rw [show (EditResult.mk true (joinLines (pre ++ joinLines mls :: T)) []).content =
      joinLines (pre ++ joinLines mls :: T) from rfl]
    rw [hsplit2, hscan2]

set_option maxRecDepth 8000 in
/-- C6 (witness): the round trip on a concrete document with surrounding
lines. -/
theorem c6_witness :
    (replace_method_in_smali ("pre\n.method abc foo()V\nstuff\n.end method\npost".toList)
      ("foo".toList)
      (get_method_from_smali ("pre\n.method abc foo()V\nstuff\n.end method\npost".toList)
        ("foo".toList)).method).success = true ∧
    (get_method_from_smali
      (replace_method_in_smali ("pre\n.method abc foo()V\nstuff\n.end method\npost".toList)
        ("foo".toList)
        (get_method_from_smali ("pre\n.method abc foo()V\nstuff\n.end method\npost".toList)
          ("foo".toList)).method).content ("foo".toList)).success = true ∧
    (get_method_from_smali
      (replace_method_in_smali ("pre\n.method abc foo()V\nstuff\n.end method\npost".toList)
        ("foo".toList)
        (get_method_from_smali ("pre\n.method abc foo()V\nstuff\n.end method\npost".toList)
          ("foo".toList)).method).content ("foo".toList)).method =
      (get_method_from_smali ("pre\n.method abc foo()V\nstuff\n.end method\npost".toList)
        ("foo".toList)).method :=
  c6_round_trip ("pre\n.method abc foo()V\nstuff\n.end method\npost".toList)
    ("foo".toList) (by decide)

set_option maxRecDepth 8000 in
/-- C8 (counterexample): the parser closes a method on a line that is NOT
exactly equal (after trimming) to the end marker: the line trimming to
`.end methodX` closes the open method, because the code tests
`startswith(".end method")` on the stripped line, not equality.  The
parsed class has one (closed) method although no line of the document
trims to the exact end marker. -/
theorem c8_counterexample :
    (parse_smali_class (".method public foo()V\n.end methodX".toList)).methods.length = 1 ∧
    (splitLines (".method public foo()V\n.end methodX".toList)).all
      (fun l => !(decide (strip l = ".end method".toList))) = true := by
  decide

/-- C8 (amended): in the parser's single forward pass, a current method is
closed only by a line whose trimmed form BEGINS WITH the method-end marker
(prefix test, not exact equality); on closing, the finalized body consists
of the accumulated lines plus that closing line (both marker lines
included), the method is appended to the methods sequence, the state
returns to outside-method, and the current-method slot is cleared. -/
theorem c8_close_semantics (st : ParseState) (raw : List Char)
    (hch : (parseLine st raw).result.methods ≠ st.result.methods) :
    ".end method".toList.isPrefixOf (strip raw) = true ∧
    ∃ c, st.current_method = some c ∧
      (parseLine st raw).result.methods =
        st.result.methods ++ [closeMethod c (st.method_lines ++ [strip raw])] ∧
      (parseLine st raw).current_method = none ∧
      (parseLine st raw).method_lines = [] := by
  by_cases h1 : ".class".toList.isPrefixOf (strip raw) = true
  · refine absurd ?_ hch
    simp only [parseLine]
    rw [if_pos h1]
    cases classSearch (strip raw) <;> rfl
  by_cases h2 : ".super".toList.isPrefixOf (strip raw) = true
  · refine absurd ?_ hch
    simp only [parseLine]
    rw [if_neg h1, if_pos h2]
    cases superSearch (strip raw) <;> rfl
  by_cases h3 : ".source".toList.isPrefixOf (strip raw) = true
  · refine absurd ?_ hch
    simp only [parseLine]
    rw [if_neg h1, if_neg h2, if_pos h3]
    cases sourceSearch (strip raw) <;> rfl
  by_cases h4 : ".implements".toList.isPrefixOf (strip raw) = true
  · refine absurd ?_ hch
    simp only [parseLine]
    rw [if_neg h1, if_neg h2, if_neg h3, if_pos h4]
    cases implementsSearch (strip raw) <;> rfl
  by_cases h5 : ".field".toList.isPrefixOf (strip raw) = true
  · refine absurd ?_ hch
    simp only [parseLine]
    rw [if_neg h1, if_neg h2, if_neg h3, if_neg h4, if_pos h5]
    cases fieldSearch (strip raw) <;> rfl
  by_cases h6 : ".method".toList.isPrefixOf (strip raw) = true
  · refine absurd ?_ hch
    simp only [parseLine]
    rw [if_neg h1, if_neg h2, if_neg h3, if_neg h4, if_neg h5, if_pos h6]
    cases methodSearch (strip raw) <;> rfl
  by_cases h7 : ".end method".toList.isPrefixOf (strip raw) = true
  · cases hc : st.current_method with
    | none =>
      refine absurd ?_ hch
      simp only [parseLine]
      rw [if_neg h1, if_neg h2, if_neg h3, if_neg h4, if_neg h5, if_neg h6, if_pos h7, hc]
    | some c =>
      have hstep : parseLine st raw =
          { st with
              result := { st.result with
                methods := st.result.methods ++
                  [closeMethod c (st.method_lines ++ [strip raw])] },
              current_method := none, method_lines := [] } := by
        simp only [parseLine]
        rw [if_neg h1, if_neg h2, if_neg h3, if_neg h4, if_neg h5, if_neg h6, if_pos h7, hc]
      exact ⟨h7, c, rfl, by rw [hstep], by rw [hstep], by rw [hstep]⟩
  · refine absurd ?_ hch
    simp only [parseLine]
    rw [if_neg h1, if_neg h2, if_neg h3, if_neg h4, if_neg h5, if_neg h6, if_neg h7]
    cases st.current_method <;> rfl

set_option maxRecDepth 8000 in
/-- C8 (witness): the amended close semantics fire on a concrete run —
after the parser has opened `foo`, the exact end-marker line closes it,
appending the two-line method and clearing the slot. -/
theorem c8_witness :
    ".end method".toList.isPrefixOf (strip (".end method".toList)) = true ∧
    ∃ c, (parseLine initState (".method public foo()V".toList)).current_method = some c ∧
      (parseLine (parseLine initState (".method public foo()V".toList))
          (".end method".toList)).result.methods =
        (parseLine initState (".method public foo()V".toList)).result.methods ++
          [closeMethod c
            ((parseLine initState (".method public foo()V".toList)).method_lines ++
              [strip (".end method".toList)])] ∧
      (parseLine (parseLine initState (".method public foo()V".toList))
          (".end method".toList)).current_method = none ∧
      (parseLine (parseLine initState (".method public foo()V".toList))
          (".end method".toList)).method_lines = [] :=
  c8_close_semantics (parseLine initState (".method public foo()V".toList))
    (".end method".toList) (by decide)

end ApkEditor
